import Mathlib

/-!
Verification of the pitch-separation pipeline and the text-splitting tool of
this repository.

The repository ships two modules.  The separation engine (pitch estimation,
histogram-based dominant-pitch discovery, mask-based voice extraction) is not
present in the source tree; every definition of namespace `Separar` is
modelled from the specification, following its words.  Real samples and
frequencies are modelled by rationals; the per-frame spectral estimator and
the Hamming smoothing kernel (whose coefficients are irrational) are explicit
parameters, so the theorems hold for every estimator and kernel meeting the
interface stated by the specification.

The text-splitting function `split_text_for_tts` of `eleven.py` is embedded
directly from the source in namespace `Eleven`, with strings as `List Char`.
-/

namespace Separar

/-- Modelled from the spec: analysis frame length (default configuration). -/
def frameLength : ℕ := 2048

/-- Modelled from the spec: analysis hop length (default configuration). -/
def hopLength : ℕ := 512

/-- Modelled from the spec: lower edge of the analysed frequency band, Hz. -/
def fmin : ℚ := 50

/-- Modelled from the spec: upper edge of the analysed frequency band, Hz. -/
def fmax : ℚ := 400

/-- Modelled from the spec: number of histogram bins over `[fmin, fmax]`. -/
def nBins : ℕ := 100

/-- Modelled from the spec: a waveform is an ordered sequence of samples
plus a sample rate in Hz. -/
structure Waveform where
  samples : List ℚ
  sampleRate : ℤ

/-- Modelled from the spec: one per-frame pitch estimate, a
(frequency, confidence) pair; confidence 0 means no usable pitch. -/
structure PitchEstimate where
  frequency : ℚ
  confidence : ℚ

/-- Modelled from the spec: the Pitch Estimator is specified only
behaviourally (spectral salience restricted to the band, maximum-salience
bin per frame).  It is kept as a parameter: a window length and a frame of
samples yield one estimate. -/
def Estimator : Type := ℕ → List ℚ → PitchEstimate

/-- Modelled from the spec: number of analysis frames covering `n` samples;
frame values repeated over `hopLength` samples cover the whole waveform. -/
def numFrames (n : ℕ) : ℕ := n / hopLength + 1

/-- Modelled from the spec: the transient window of samples of frame `i`. -/
def frameAt (samples : List ℚ) (i : ℕ) : List ℚ :=
  (samples.drop (i * hopLength)).take frameLength

/-- Modelled from the spec: run the estimator on every analysis frame,
index-aligned with the frame index. -/
def pitchTrack (E : Estimator) (win : ℕ) (samples : List ℚ) : List PitchEstimate :=
  (List.range (numFrames samples.length)).map (fun i => E win (frameAt samples i))

/-- Modelled from the spec: width of one histogram bin. -/
def binWidth : ℚ := (fmax - fmin) / (nBins : ℚ)

/-- Modelled from the spec: lower edge of bin `i`. -/
def binLower (i : ℕ) : ℚ := fmin + binWidth * (i : ℚ)

/-- Modelled from the spec: bin index of an in-range frequency (the closed
upper edge falls into the last bin). -/
def binIndexOf (f : ℚ) : ℕ :=
  min (nBins - 1) (Int.toNat ⌊(f - fmin) / binWidth⌋)

/-- Modelled from the spec: 100-bin histogram of the collected frequencies
spanning `[fmin, fmax]`; out-of-range values are dropped. -/
def histogram (freqs : List ℚ) : List ℕ :=
  (List.range nBins).map
    (fun i => (freqs.filter
      (fun f => decide (fmin ≤ f ∧ f ≤ fmax ∧ binIndexOf f = i))).length)

/-- Zero-padded list lookup used by same-length convolution: entry `m - j`
when `j ≤ m` and in range, else `0`. -/
def getPad (xs : List ℚ) (m j : ℕ) : ℚ :=
  if j ≤ m then xs.getD (m - j) 0 else 0

/-- Modelled from the spec: convolution in "same length as input" mode
(implicit zero padding beyond the edges). -/
def convSame (ker xs : List ℚ) : List ℚ :=
  (List.range xs.length).map
    (fun i => ((List.range ker.length).map
      (fun j => ker.getD j 0 * getPad xs (i + (ker.length - 1) / 2) j)).sum)

/-- Modelled from the spec: an interior strict local maximum of the smoothed
histogram. -/
def isPeak (h : List ℚ) (i : ℕ) : Bool :=
  decide (0 < i ∧ i + 1 < h.length ∧
    h.getD (i - 1) 0 < h.getD i 0 ∧ h.getD (i + 1) 0 < h.getD i 0)

/-- Minimum value found walking one side away from a peak of height `v`
while staying at or below `v` (the base of the peak on that side). -/
def baseMin (v : ℚ) (side : List ℚ) : ℚ :=
  (side.takeWhile (fun x => decide (x ≤ v))).foldr min v

/-- Modelled from the spec: topographic prominence of the local maximum at
index `i`: its height minus the higher of its two bases. -/
def peakProminence (h : List ℚ) (i : ℕ) : ℚ :=
  let v := h.getD i 0
  v - max (baseMin v ((h.take i).reverse)) (baseMin v (h.drop (i + 1)))

/-- Global maximum of the smoothed histogram (0 for an empty one). -/
def histMax (h : List ℚ) : ℚ := h.foldr max 0

/-- Indices of all interior strict local maxima. -/
def rawPeaks (h : List ℚ) : List ℕ :=
  (List.range h.length).filter (fun i => isPeak h i)

/-- Modelled from the spec: local maxima whose prominence reaches 10% of the
histogram's global maximum. -/
def promPeaks (h : List ℚ) : List ℕ :=
  (rawPeaks h).filter (fun i => decide (histMax h / 10 ≤ peakProminence h i))

/-- Insert an index into a list of indices kept in descending order of
histogram value. -/
def insertDesc (h : List ℚ) (i : ℕ) : List ℕ → List ℕ
  | [] => [i]
  | j :: rest =>
    if h.getD j 0 < h.getD i 0 then i :: j :: rest else j :: insertDesc h i rest

/-- Sort indices descending by their histogram value. -/
def sortDesc (h : List ℚ) (ps : List ℕ) : List ℕ :=
  ps.foldr (insertDesc h) []

/-- `true` when `i` is at least `d` bins away from every kept index. -/
def farFrom (kept : List ℕ) (i d : ℕ) : Bool :=
  kept.all (fun j => decide ((d : ℤ) ≤ |(i : ℤ) - (j : ℤ)|))

/-- Modelled from the spec: enforce the minimum horizontal separation by
keeping peaks greedily in descending-height order. -/
def distanceFilter (d : ℕ) (ps : List ℕ) : List ℕ :=
  ps.foldl (fun kept i => if farFrom kept i d then kept ++ [i] else kept) []

/-- Modelled from the spec: the Pitch Distribution Analyzer.  Frequencies of
frames with strictly positive confidence are binned into the 100-bin
histogram, smoothed with the kernel `ker` (a length-10 Hamming window in the
specified configuration), peaks are detected subject to a 20-bin separation
and a 10%-of-maximum prominence, ranked descending by smoothed value, mapped
back to bin lower edges, and at most the first two are returned. -/
def analyzeDominantPitches (E : Estimator) (ker : List ℚ) (w : Waveform) : List ℚ :=
  let ests := pitchTrack E frameLength w.samples
  let freqs := (ests.filter (fun e => decide (0 < e.confidence))).map
    (fun e => e.frequency)
  let sm := convSame ker ((histogram freqs).map (fun c : ℕ => (c : ℚ)))
  let peaks := distanceFilter 20 (sortDesc sm (promPeaks sm))
  ((sortDesc sm peaks).take 2).map binLower

/-- Modelled from the spec: default stability of the Voice Mask Builder. -/
def defaultStability : ℚ := 1 / 2

/-- Modelled from the spec: default similarity of the Voice Mask Builder. -/
def defaultSimilarity : ℚ := 3 / 4

/-- Modelled from the spec: analysis window length
`round(2048 * (1 - stability))`. -/
def windowLenFor (stability : ℚ) : ℕ :=
  Int.toNat (round ((frameLength : ℚ) * (1 - stability)))

/-- Modelled from the spec: proximity tolerance `30 * (1 - similarity)` Hz. -/
def toleranceFor (similarity : ℚ) : ℚ := 30 * (1 - similarity)

/-- Modelled from the spec: binary frame-level mask, 1.0 where the frame's
estimated pitch is within `tol` of the target (frames of zero confidence
still contribute their nominal frequency), else 0.0. -/
def binaryMask (E : Estimator) (win : ℕ) (samples : List ℚ) (target tol : ℚ) :
    List ℚ :=
  (pitchTrack E win samples).map
    (fun e => if |e.frequency - target| ≤ tol then (1 : ℚ) else 0)

/-- Modelled from the spec: uniform weights of the length-15 moving
average. -/
def uniform15 : List ℚ := List.replicate 15 (1 / 15)

/-- Modelled from the spec: the smoothed per-frame separation mask for one
target pitch under the two tuning knobs. -/
def frameMask (E : Estimator) (samples : List ℚ) (target stability similarity : ℚ) :
    List ℚ :=
  convSame uniform15
    (binaryMask E (windowLenFor stability) samples target (toleranceFor similarity))

/-- Modelled from the spec: upsample a per-frame mask to sample resolution by
repeating each value over `hopLength` consecutive samples. -/
def upsampleMask : List ℚ → List ℚ
  | [] => []
  | v :: rest => List.replicate hopLength v ++ upsampleMask rest

/-- Largest absolute sample value (0 for an empty list). -/
def maxAbs (xs : List ℚ) : ℚ := (xs.map (fun x => |x|)).foldr max 0

/-- Modelled from the spec: scale so the maximum absolute amplitude is 1.0;
an all-zero signal is returned unscaled rather than divided by zero. -/
def normalize (xs : List ℚ) : List ℚ :=
  if maxAbs xs = 0 then xs else xs.map (fun x => x / maxAbs xs)

/-- Modelled from the spec: the waveform after masking, before the final
normalization: the mask is upsampled, truncated to the sample count, and
multiplied sample-wise into the original waveform. -/
def maskedSignal (E : Estimator) (w : Waveform) (target stability similarity : ℚ) :
    List ℚ :=
  List.zipWith (fun a b => a * b) w.samples
    ((upsampleMask (frameMask E w.samples target stability similarity)).take
      w.samples.length)

/-- Modelled from the spec: the Voice Mask Builder boundary function
`separateByPitch`: masked then amplitude-normalized, same sample rate. -/
def separateByPitch (E : Estimator) (w : Waveform) (target stability similarity : ℚ) :
    Waveform :=
  ⟨normalize (maskedSignal E w target stability similarity), w.sampleRate⟩

/-- Clamp an integer to the signed 16-bit range. -/
def clamp16 (z : ℤ) : ℤ := max (-32768) (min 32767 z)

/-- Modelled from the spec: 16-bit PCM encoding `round(sample * 32767)`,
clamped to the valid range. -/
def pcm16 (xs : List ℚ) : List ℤ :=
  xs.map (fun x => clamp16 (round (x * 32767)))

/-- Modelled from the spec: the Separation Orchestrator.  Every candidate
pitch of the Analyzer is separated with the default stability/similarity
pair and packaged with its 16-bit PCM samples. -/
def processRecording (E : Estimator) (ker : List ℚ) (w : Waveform) :
    List (ℚ × List ℤ) :=
  (analyzeDominantPitches E ker w).map
    (fun f => (f, pcm16 (separateByPitch E w f defaultStability defaultSimilarity).samples))

/-- Modelled from the spec: outcome of a checked pipeline request;
`invalidInput` is an error kind, `noPitchDetected` the legitimate
empty-result outcome. -/
inductive Outcome where
  | invalidInput : Outcome
  | noPitchDetected : Outcome
  | separated : List (ℚ × List ℤ) → Outcome

/-- Modelled from the spec: a request is well-formed when the waveform is
nonempty, the sample rate positive, and both knobs lie in `[0, 1]`. -/
def validInput (w : Waveform) (stability similarity : ℚ) : Bool :=
  decide (w.samples ≠ [] ∧ 0 < w.sampleRate ∧
    0 ≤ stability ∧ stability ≤ 1 ∧ 0 ≤ similarity ∧ similarity ≤ 1)

/-- Modelled from the spec: the checked entry point; malformed input is
rejected with `invalidInput` before any processing, an empty candidate set
is reported as `noPitchDetected`. -/
def processRecordingChecked (E : Estimator) (ker : List ℚ) (w : Waveform)
    (stability similarity : ℚ) : Outcome :=
  if validInput w stability similarity then
    let res := (analyzeDominantPitches E ker w).map
      (fun f => (f, pcm16 (separateByPitch E w f stability similarity).samples))
    if res.isEmpty then Outcome.noPitchDetected else Outcome.separated res
  else Outcome.invalidInput

/-- A constant estimator used to exhibit concrete runs of the pipeline. -/
def constEstimator (f c : ℚ) : Estimator := fun _ _ => ⟨f, c⟩

/-- The estimator assigning zero confidence and frequency everywhere. -/
def zeroEstimator : Estimator := fun _ _ => ⟨0, 0⟩

/-- Number of frames of a smoothed mask whose value is strictly positive. -/
def countPos (xs : List ℚ) : ℕ := xs.countP (fun x => decide (0 < x))

end Separar

namespace Eleven

/-- Strings of `eleven.py` are embedded as lists of characters. -/
abbrev Str : Type := List Char

/-- Whitespace as stripped by Python's `str.strip()` (the ASCII whitespace
characters; the rarely used non-ASCII Unicode spaces are not modelled). -/
def isSpacePy (c : Char) : Bool :=
  c = ' ' || c = '\t' || c = '\n' || c = '\r' || c = '\x0b' || c = '\x0c' ||
  c = '\x1c' || c = '\x1d' || c = '\x1e' || c = '\x1f' || c = '\x85' ||
  c = '\xa0'

/-- Python `s.strip(chars)`: drop characters satisfying `p` from both
ends. -/
def stripP (p : Char → Bool) (s : List Char) : List Char :=
  ((s.dropWhile p).reverse.dropWhile p).reverse

/-- Python `s.strip()` (line 16, 25, 33, 46, 49 of `eleven.py`). -/
def stripWS (s : Str) : Str := stripP isSpacePy s

/-- Python `s.strip(", ")` (line 35 of `eleven.py`). -/
def stripCS (s : Str) : Str := stripP (fun c => c = ',' || c = ' ') s

/-- Python `text.split(sep)` for a one-character separator: empty pieces
between consecutive separators are kept, and the empty text yields one
empty piece. -/
def splitOnC (sep : Char) : List Char → List (List Char)
  | [] => [[]]
  | c :: rest =>
    match splitOnC sep rest, decide (c = sep) with
    | r, true => [] :: r
    | [], false => [[c]]
    | h :: t, false => (c :: h) :: t

/-- Python `paragraph.replace(". ", ".")` (line 25): left-to-right
non-overlapping replacement. -/
def replaceDotSpace : List Char → List Char
  | [] => []
  | '.' :: ' ' :: rest => '.' :: replaceDotSpace rest
  | c :: rest => c :: replaceDotSpace rest

/-- Lines 25 of `eleven.py`: the sentence list of an over-long paragraph:
split on periods after collapsing `". "`, keep the stripped non-blank
pieces, and append a period to each. -/
def sentencesOf (paragraph : Str) : List Str :=
  (((splitOnC '.' (replaceDotSpace paragraph)).map stripWS).filter
    (fun s => !s.isEmpty)).map (fun s => s ++ ['.'])

/-- Lines 32-39 of `eleven.py`: one step of the comma loop over the state
(fragments, current_part). -/
def commaStep (maxChars : ℕ) (st : List Str × Str) (rawPart : Str) :
    List Str × Str :=
  let part := stripWS rawPart
  if st.2.length + part.length + 2 ≤ maxChars then
    (st.1, stripCS (st.2 ++ ',' :: ' ' :: part))
  else if st.2 ≠ [] then (st.1 ++ [st.2 ++ ['.']], part)
  else (st.1, part)

/-- Lines 27-49 of `eleven.py`: one step of the sentence loop over the state
(fragments, current_fragment). -/
def sentenceStep (maxChars : ℕ) (st : List Str × Str) (sentence : Str) :
    List Str × Str :=
  if maxChars < sentence.length then
    let inner := (splitOnC ',' sentence).foldl (commaStep maxChars) (st.1, [])
    (if inner.2 ≠ [] then inner.1 ++ [inner.2 ++ ['.']] else inner.1, st.2)
  else if maxChars < st.2.length + sentence.length then
    (if st.2 ≠ [] then st.1 ++ [stripWS st.2] else st.1, sentence)
  else (st.1, stripWS (st.2 ++ ' ' :: sentence))

/-- Lines 20-53 of `eleven.py`: one step of the paragraph loop.  A paragraph
within the limit is emitted as is; an over-long one runs the sentence loop
and flushes the pending fragment. -/
def paragraphStep (maxChars : ℕ) (st : List Str × Str) (paragraph : Str) :
    List Str × Str :=
  if paragraph.length ≤ maxChars then (st.1 ++ [paragraph], st.2)
  else
    let inner := (sentencesOf paragraph).foldl (sentenceStep maxChars) st
    if inner.2 ≠ [] then (inner.1 ++ [inner.2], []) else (inner.1, inner.2)

/-- Line 16 of `eleven.py`: the stripped, non-blank, newline-separated
paragraphs of the input text. -/
def paragraphsOf (text : Str) : List Str :=
  ((splitOnC '\n' text).map stripWS).filter (fun s => !s.isEmpty)

/-- Lines 8-58 of `eleven.py`: `split_text_for_tts(text, max_chars)`. -/
def split_text_for_tts (text : Str) (maxChars : ℕ) : List Str :=
  let st := (paragraphsOf text).foldl (paragraphStep maxChars) ([], [])
  if st.2 ≠ [] then st.1 ++ [st.2] else st.1

end Eleven

namespace Eleven

theorem stripP_nil (p : Char → Bool) : stripP p [] = [] := rfl

theorem stripP_eq_nil_of_all (p : Char → Bool) (s : List Char)
    (h : ∀ c ∈ s, p c = true) : stripP p s = [] := by
  unfold stripP
  rw [List.dropWhile_eq_nil_iff.mpr h]
  rfl

theorem dropWhile_stripP (p : Char → Bool) (s : List Char) :
    (stripP p s).dropWhile p = stripP p s := by
  unfold stripP
  obtain ⟨u, hu⟩ := List.dropWhile_suffix (l := (s.dropWhile p).reverse) p
  cases hrt : ((s.dropWhile p).reverse.dropWhile p).reverse with
  | nil => rfl
  | cons h t' =>
    have hde : s.dropWhile p = h :: (t' ++ u.reverse) := by
      have h1 := congrArg List.reverse hu
      simp only [List.reverse_append, List.reverse_reverse] at h1
      rw [hrt] at h1
      simpa using h1.symm
    have h2 := List.head?_dropWhile_not p s
    rw [hde] at h2
    simp only [List.head?_cons] at h2
    rw [List.dropWhile_cons, h2]
    simp

theorem stripP_idem (p : Char → Bool) (s : List Char) :
    stripP p (stripP p s) = stripP p s := by
  have h1 : (stripP p s).dropWhile p = stripP p s := dropWhile_stripP p s
  show (((stripP p s).dropWhile p).reverse.dropWhile p).reverse = stripP p s
  rw [h1]
  show ((((s.dropWhile p).reverse.dropWhile p).reverse).reverse.dropWhile p).reverse
      = stripP p s
  rw [List.reverse_reverse, List.dropWhile_idempotent]
  rfl

theorem length_dropWhile_le' (p : Char → Bool) (l : List Char) :
    (l.dropWhile p).length ≤ l.length :=
  (List.dropWhile_suffix p).sublist.length_le

theorem dropWhile_eq_self_of_stripP (p : Char → Bool) (q : List Char)
    (hq : stripP p q = q) : q.dropWhile p = q := by
  refine (List.dropWhile_suffix p).sublist.eq_of_length ?_
  have h1 : (stripP p q).length ≤ (q.dropWhile p).length := by
    unfold stripP
    calc (((q.dropWhile p).reverse.dropWhile p).reverse).length
        = ((q.dropWhile p).reverse.dropWhile p).length := List.length_reverse _
      _ ≤ (q.dropWhile p).reverse.length := length_dropWhile_le' p _
      _ = (q.dropWhile p).length := List.length_reverse _
  have h2 : (q.dropWhile p).length ≤ q.length := length_dropWhile_le' p q
  have h3 : q.length ≤ (q.dropWhile p).length := by rw [hq] at h1; exact h1
  exact Nat.le_antisymm h2 h3

theorem head_not_of_stripP (p : Char → Bool) (h : Char) (t : List Char)
    (hq : stripP p (h :: t) = h :: t) : p h = false := by
  have hd := dropWhile_eq_self_of_stripP p (h :: t) hq
  by_contra hcon
  have hph : p h = true := by
    cases hh : p h with
    | false => exact absurd hh hcon
    | true => rfl
  rw [List.dropWhile_cons, hph] at hd
  simp only [if_true] at hd
  have := congrArg List.length hd
  have hle := length_dropWhile_le' p t
  simp only [List.length_cons] at this
  omega

theorem stripP_append_dot (p : Char → Bool) (q : List Char) (c : Char)
    (hq : stripP p q = q) (hq0 : q ≠ []) (hc : p c = false) :
    stripP p (q ++ [c]) = q ++ [c] := by
  obtain ⟨h, t, rfl⟩ := List.exists_cons_of_ne_nil hq0
  have hph : p h = false := head_not_of_stripP p h t hq
  unfold stripP
  rw [List.cons_append, List.dropWhile_cons, hph]
  simp only [if_false, Bool.false_eq_true]
  have hrev : ((h :: (t ++ [c])).reverse).dropWhile p = (h :: (t ++ [c])).reverse := by
    have : (h :: (t ++ [c])).reverse = c :: (t.reverse ++ [h]) := by simp
    rw [this, List.dropWhile_cons, hc]
    simp
  rw [hrev, List.reverse_reverse]

theorem stripWS_idem (s : Str) : stripWS (stripWS s) = stripWS s :=
  stripP_idem isSpacePy s

theorem stripWS_append_dot (q : Str) (hq : stripWS q = q) (hq0 : q ≠ []) :
    stripWS (q ++ ['.']) = q ++ ['.'] :=
  stripP_append_dot isSpacePy q '.' hq hq0 rfl

end Eleven

namespace Eleven

theorem foldl_frags_subset {α : Type} (step : List Str × Str → α → List Str × Str)
    (hstep : ∀ st a, st.1 ⊆ (step st a).1) :
    ∀ (l : List α) (st : List Str × Str), st.1 ⊆ (l.foldl step st).1 := by
  intro l
  induction l with
  | nil => intro st x hx; exact hx
  | cons a t ih =>
    intro st x hx
    exact ih (step st a) (hstep st a hx)

theorem commaStep_frags_subset (m : ℕ) (st : List Str × Str) (a : Str) :
    st.1 ⊆ (commaStep m st a).1 := by
  simp only [commaStep]
  split
  · exact fun x hx => hx
  · split
    · exact List.subset_append_left _ _
    · exact fun x hx => hx

theorem sentenceStep_frags_subset (m : ℕ) (st : List Str × Str) (a : Str) :
    st.1 ⊆ (sentenceStep m st a).1 := by
  simp only [sentenceStep]
  split
  · have h1 : st.1 ⊆ ((splitOnC ',' a).foldl (commaStep m) (st.1, [])).1 :=
      foldl_frags_subset (commaStep m) (commaStep_frags_subset m) _ (st.1, [])
    split
    · exact fun x hx => List.mem_append_left _ (h1 hx)
    · exact h1
  · split
    · split
      · exact List.subset_append_left _ _
      · exact fun x hx => hx
    · exact fun x hx => hx

theorem paragraphStep_frags_subset (m : ℕ) (st : List Str × Str) (a : Str) :
    st.1 ⊆ (paragraphStep m st a).1 := by
  simp only [paragraphStep]
  split
  · exact List.subset_append_left _ _
  · have h1 : st.1 ⊆ ((sentencesOf a).foldl (sentenceStep m) st).1 :=
      foldl_frags_subset (sentenceStep m) (sentenceStep_frags_subset m) _ st
    split
    · exact fun x hx => List.mem_append_left _ (h1 hx)
    · exact h1

theorem paragraphStep_mem_short (m : ℕ) (st : List Str × Str) (q : Str)
    (hlen : q.length ≤ m) : q ∈ (paragraphStep m st q).1 := by
  simp only [paragraphStep]
  rw [if_pos hlen]
  exact List.mem_append_right _ (List.mem_singleton_self q)

end Eleven

/-- C9: every newline-separated paragraph of the input that is non-blank
after stripping and whose stripped length is at most `maxChars` appears,
character for character, as one element of the returned fragment list
(line 22 of `eleven.py`). -/
theorem Eleven.split_short_paragraph_preserved (text : Eleven.Str) (maxChars : ℕ)
    (p : Eleven.Str) (hp : p ∈ Eleven.splitOnC '\n' text)
    (hne : Eleven.stripWS p ≠ []) (hlen : (Eleven.stripWS p).length ≤ maxChars) :
    Eleven.stripWS p ∈ Eleven.split_text_for_tts text maxChars := by
  have hqmem : Eleven.stripWS p ∈ Eleven.paragraphsOf text := by
    unfold Eleven.paragraphsOf
    refine List.mem_filter.mpr ⟨List.mem_map_of_mem Eleven.stripWS hp, ?_⟩
    cases hq : Eleven.stripWS p with
    | nil => exact absurd hq hne
    | cons c t => rfl
  obtain ⟨l1, l2, hsplit⟩ := List.append_of_mem hqmem
  have hmem1 : Eleven.stripWS p ∈
      ((Eleven.paragraphsOf text).foldl (Eleven.paragraphStep maxChars) ([], [])).1 := by
    rw [hsplit, List.foldl_append, List.foldl_cons]
    refine Eleven.foldl_frags_subset (Eleven.paragraphStep maxChars)
      (Eleven.paragraphStep_frags_subset maxChars) l2 _ ?_
    exact Eleven.paragraphStep_mem_short maxChars _ _ hlen
  simp only [Eleven.split_text_for_tts]
  split
  · exact List.mem_append_left _ hmem1
  · exact hmem1

/-- C8: when no newline-separated line of the input contains a
non-whitespace character (empty or whitespace-only text), the paragraph
list of line 16 of `eleven.py` is empty and `split_text_for_tts` returns
the empty list. -/
theorem Eleven.split_whitespace_only_empty (text : Eleven.Str) (maxChars : ℕ)
    (h : ∀ p ∈ Eleven.splitOnC '\n' text, ∀ c ∈ p, Eleven.isSpacePy c = true) :
    Eleven.split_text_for_tts text maxChars = [] := by
  have hpar : Eleven.paragraphsOf text = [] := by
    unfold Eleven.paragraphsOf
    refine List.filter_eq_nil_iff.mpr ?_
    intro a ha
    obtain ⟨piece, hpiece, rfl⟩ := List.mem_map.mp ha
    have hz : Eleven.stripWS piece = [] :=
      Eleven.stripP_eq_nil_of_all Eleven.isSpacePy piece (h piece hpiece)
    rw [hz]
    simp
  simp [Eleven.split_text_for_tts, hpar]

namespace Eleven

/-- State invariant of the splitting loops: no emitted fragment is empty
and the pending fragment is already stripped. -/
def StInv (st : List Str × Str) : Prop :=
  (∀ f ∈ st.1, f ≠ []) ∧ stripWS st.2 = st.2

/-- Shape of every element of `sentencesOf`: a stripped non-blank piece
followed by a period. -/
def SentShape (sentence : Str) : Prop :=
  ∃ q, q ≠ [] ∧ stripWS q = q ∧ sentence = q ++ ['.']

theorem sentencesOf_shape (para : Str) : ∀ a ∈ sentencesOf para, SentShape a := by
  intro a ha
  unfold sentencesOf at ha
  obtain ⟨q, hq, rfl⟩ := List.mem_map.mp ha
  have hq2 := List.mem_filter.mp hq
  obtain ⟨s, hs, rfl⟩ := List.mem_map.mp hq2.1
  refine ⟨stripWS s, ?_, stripWS_idem s, rfl⟩
  intro hz
  have h3 := hq2.2
  rw [hz] at h3
  simp at h3

theorem commaStep_frags_ne (m : ℕ) (st : List Str × Str) (a : Str)
    (h : ∀ f ∈ st.1, f ≠ []) : ∀ f ∈ (commaStep m st a).1, f ≠ [] := by
  simp only [commaStep]
  split
  · exact h
  · split
    · intro f hf
      rcases List.mem_append.mp hf with h1 | h1
      · exact h f h1
      · rw [List.mem_singleton.mp h1]
        simp
    · exact h

theorem commaFold_frags_ne (m : ℕ) :
    ∀ (l : List Str) (st : List Str × Str), (∀ f ∈ st.1, f ≠ []) →
      ∀ f ∈ (l.foldl (commaStep m) st).1, f ≠ [] := by
  intro l
  induction l with
  | nil => exact fun st h => h
  | cons a t ih =>
    intro st h
    exact ih (commaStep m st a) (commaStep_frags_ne m st a h)

theorem sentenceStep_inv (m : ℕ) (st : List Str × Str) (sentence : Str)
    (hs : SentShape sentence) (h : StInv st) : StInv (sentenceStep m st sentence) := by
  obtain ⟨q, hq0, hqs, rfl⟩ := hs
  simp only [sentenceStep]
  split
  · refine ⟨?_, h.2⟩
    have hin : ∀ f ∈ ((splitOnC ',' (q ++ ['.'])).foldl (commaStep m) (st.1, [])).1,
        f ≠ [] := commaFold_frags_ne m _ (st.1, []) h.1
    split
    · intro f hf
      rcases List.mem_append.mp hf with h1 | h1
      · exact hin f h1
      · rw [List.mem_singleton.mp h1]
        simp
    · exact hin
  · split
    · refine ⟨?_, stripWS_append_dot q hqs hq0⟩
      split
      · intro f hf
        rcases List.mem_append.mp hf with h1 | h1
        · exact h.1 f h1
        · rw [List.mem_singleton.mp h1, h.2]
          assumption
      · exact h.1
    · exact ⟨h.1, stripWS_idem _⟩

theorem sentences_fold_inv (m : ℕ) :
    ∀ (l : List Str), (∀ a ∈ l, SentShape a) → ∀ st, StInv st →
      StInv (l.foldl (sentenceStep m) st) := by
  intro l
  induction l with
  | nil => exact fun _ st h => h
  | cons a t ih =>
    intro hl st h
    exact ih (fun b hb => hl b (List.mem_cons_of_mem a hb)) (sentenceStep m st a)
      (sentenceStep_inv m st a (hl a (List.mem_cons_self a t)) h)

theorem paragraphStep_inv (m : ℕ) (st : List Str × Str) (para : Str)
    (hpne : para ≠ []) (h : StInv st) : StInv (paragraphStep m st para) := by
  simp only [paragraphStep]
  split
  · refine ⟨?_, h.2⟩
    intro f hf
    rcases List.mem_append.mp hf with h1 | h1
    · exact h.1 f h1
    · rw [List.mem_singleton.mp h1]
      exact hpne
  · have hinner : StInv ((sentencesOf para).foldl (sentenceStep m) st) :=
      sentences_fold_inv m _ (sentencesOf_shape para) st h
    split
    · refine ⟨?_, rfl⟩
      intro f hf
      rcases List.mem_append.mp hf with h1 | h1
      · exact hinner.1 f h1
      · rw [List.mem_singleton.mp h1]
        assumption
    · exact hinner

theorem paragraphs_fold_inv (m : ℕ) :
    ∀ (l : List Str), (∀ a ∈ l, a ≠ []) → ∀ st, StInv st →
      StInv (l.foldl (paragraphStep m) st) := by
  intro l
  induction l with
  | nil => exact fun _ st h => h
  | cons a t ih =>
    intro hl st h
    exact ih (fun b hb => hl b (List.mem_cons_of_mem a hb)) (paragraphStep m st a)
      (paragraphStep_inv m st a (hl a (List.mem_cons_self a t)) h)

theorem paragraphsOf_ne (text : Str) : ∀ a ∈ paragraphsOf text, a ≠ [] := by
  intro a ha hz
  have h2 := (List.mem_filter.mp ha).2
  rw [hz] at h2
  simp at h2

end Eleven

/-- C10: every fragment returned by `split_text_for_tts` is a non-empty
string; the function never emits an empty fragment. -/
theorem Eleven.split_no_empty_fragments (text : Eleven.Str) (maxChars : ℕ)
    (f : Eleven.Str) (hf : f ∈ Eleven.split_text_for_tts text maxChars) :
    f ≠ [] := by
  have hinv : Eleven.StInv
      ((Eleven.paragraphsOf text).foldl (Eleven.paragraphStep maxChars) ([], [])) :=
    Eleven.paragraphs_fold_inv maxChars _ (Eleven.paragraphsOf_ne text) ([], [])
      ⟨fun g hg => absurd hg (List.not_mem_nil g), rfl⟩
  revert hf
  simp only [Eleven.split_text_for_tts]
  split
  · intro hf
    rcases List.mem_append.mp hf with h1 | h1
    · exact hinv.1 f h1
    · rw [List.mem_singleton.mp h1]
      assumption
  · exact fun hf => hinv.1 f hf

/-- Witness for C8: the whitespace-only text `" \n\t"` splits into no
fragments. -/
theorem Eleven.split_whitespace_only_empty_witness :
    (∀ p ∈ Eleven.splitOnC '\n' ([' ', '\n', '\t'] : List Char),
      ∀ c ∈ p, Eleven.isSpacePy c = true) ∧
    Eleven.split_text_for_tts [' ', '\n', '\t'] 5 = [] :=
  ⟨by decide, Eleven.split_whitespace_only_empty [' ', '\n', '\t'] 5 (by decide)⟩

/-- Witness for C9: in the text `"ab\ncd"`, the short paragraph `"ab"`
appears verbatim among the fragments. -/
theorem Eleven.split_short_paragraph_preserved_witness :
    (['a', 'b'] : List Char) ∈ Eleven.splitOnC '\n' ['a', 'b', '\n', 'c', 'd'] ∧
    Eleven.stripWS ['a', 'b'] ∈ Eleven.split_text_for_tts ['a', 'b', '\n', 'c', 'd'] 9 :=
  ⟨by decide, Eleven.split_short_paragraph_preserved ['a', 'b', '\n', 'c', 'd'] 9
    ['a', 'b'] (by decide) (by decide) (by decide)⟩

/-- Witness for C10: the fragment produced for the text `"ab"` is
non-empty. -/
theorem Eleven.split_no_empty_fragments_witness :
    (['a', 'b'] : List Char) ∈ Eleven.split_text_for_tts ['a', 'b'] 5 ∧
    (['a', 'b'] : List Char) ≠ [] :=
  ⟨by decide, Eleven.split_no_empty_fragments ['a', 'b'] 5 ['a', 'b'] (by decide)⟩

namespace Separar

theorem length_convSame (ker xs : List ℚ) : (convSame ker xs).length = xs.length := by
  simp [convSame]

theorem length_histogram (freqs : List ℚ) : (histogram freqs).length = nBins := by
  simp [histogram]

theorem length_pitchTrack (E : Estimator) (win : ℕ) (samples : List ℚ) :
    (pitchTrack E win samples).length = numFrames samples.length := by
  simp [pitchTrack]

theorem length_binaryMask (E : Estimator) (win : ℕ) (samples : List ℚ) (target tol : ℚ) :
    (binaryMask E win samples target tol).length = numFrames samples.length := by
  simp [binaryMask, length_pitchTrack]

theorem length_frameMask (E : Estimator) (samples : List ℚ) (t s σ : ℚ) :
    (frameMask E samples t s σ).length = numFrames samples.length := by
  simp [frameMask, length_convSame, length_binaryMask]

theorem length_upsampleMask (m : List ℚ) :
    (upsampleMask m).length = hopLength * m.length := by
  induction m with
  | nil => simp [upsampleMask]
  | cons v rest ih =>
    simp only [upsampleMask, List.length_append, List.length_replicate, ih,
      List.length_cons]
    ring

theorem le_hop_mul_numFrames (n : ℕ) : n ≤ hopLength * numFrames n := by
  show n ≤ 512 * (n / 512 + 1)
  omega

theorem length_normalize (xs : List ℚ) : (normalize xs).length = xs.length := by
  unfold normalize
  split
  · rfl
  · simp

theorem length_maskedSignal (E : Estimator) (w : Waveform) (t s σ : ℚ) :
    (maskedSignal E w t s σ).length = w.samples.length := by
  unfold maskedSignal
  rw [List.length_zipWith, List.length_take, length_upsampleMask, length_frameMask]
  have h := le_hop_mul_numFrames w.samples.length
  omega

end Separar

/-- C3: for every waveform and target pitch (and any estimator and tuning
parameters), `separateByPitch` returns a waveform with the same sample count
and the same sample rate as its input. -/
theorem Separar.separate_preserves_length_rate (E : Separar.Estimator)
    (w : Separar.Waveform) (target stability similarity : ℚ) :
    (Separar.separateByPitch E w target stability similarity).samples.length =
      w.samples.length ∧
    (Separar.separateByPitch E w target stability similarity).sampleRate =
      w.sampleRate := by
  constructor
  · show (Separar.normalize (Separar.maskedSignal E w target stability similarity)).length
      = w.samples.length
    rw [Separar.length_normalize, Separar.length_maskedSignal]
  · rfl

/-- C2: the Voice Mask Builder's tuning parameters default to
stability = 0.5 and similarity = 0.75, and the Orchestrator invokes the
separation with exactly this default pair for every candidate pitch. -/
theorem Separar.orchestrator_uses_default_pair :
    Separar.defaultStability = (0.5 : ℚ) ∧ Separar.defaultSimilarity = (0.75 : ℚ) ∧
    ∀ (E : Separar.Estimator) (ker : List ℚ) (w : Separar.Waveform),
      Separar.processRecording E ker w =
        (Separar.analyzeDominantPitches E ker w).map
          (fun f => (f, Separar.pcm16 (Separar.separateByPitch E w f
            Separar.defaultStability Separar.defaultSimilarity).samples)) :=
  ⟨by norm_num [Separar.defaultStability], by norm_num [Separar.defaultSimilarity],
    fun _ _ _ => rfl⟩

/-- C6: malformed input (empty waveform, non-positive sample rate, or an
out-of-range stability/similarity) is rejected with the `invalidInput` error
before any processing, and that error kind is distinct from the
`noPitchDetected` empty-result outcome. -/
theorem Separar.invalid_input_rejected (E : Separar.Estimator) (ker : List ℚ)
    (w : Separar.Waveform) (stability similarity : ℚ)
    (h : Separar.validInput w stability similarity = false) :
    Separar.processRecordingChecked E ker w stability similarity =
      Separar.Outcome.invalidInput ∧
    Separar.Outcome.invalidInput ≠ Separar.Outcome.noPitchDetected := by
  constructor
  · unfold Separar.processRecordingChecked
    rw [h]
    simp
  · intro hc
    exact Separar.Outcome.noConfusion hc

/-- Witness for C6: the empty waveform is rejected as invalid input. -/
theorem Separar.invalid_input_rejected_witness :
    Separar.validInput ⟨[], 44100⟩ Separar.defaultStability Separar.defaultSimilarity
      = false ∧
    Separar.processRecordingChecked Separar.zeroEstimator [1] ⟨[], 44100⟩
      Separar.defaultStability Separar.defaultSimilarity =
      Separar.Outcome.invalidInput :=
  ⟨by decide, (Separar.invalid_input_rejected Separar.zeroEstimator [1] ⟨[], 44100⟩
    Separar.defaultStability Separar.defaultSimilarity (by decide)).1⟩

namespace Separar

theorem maxAbs_cons (x : ℚ) (t : List ℚ) : maxAbs (x :: t) = max |x| (maxAbs t) := rfl

theorem maxAbs_nonneg (xs : List ℚ) : 0 ≤ maxAbs xs := by
  induction xs with
  | nil => exact le_refl 0
  | cons x t ih =>
    rw [maxAbs_cons]
    exact le_trans ih (le_max_right _ _)

theorem maxAbs_eq_zero_iff (xs : List ℚ) : maxAbs xs = 0 ↔ ∀ x ∈ xs, x = 0 := by
  induction xs with
  | nil => simp [maxAbs]
  | cons x t ih =>
    rw [maxAbs_cons]
    constructor
    · intro h
      have h1 : |x| ≤ 0 := h ▸ le_max_left _ _
      have h2 : maxAbs t ≤ 0 := h ▸ le_max_right _ _
      have hx : x = 0 := abs_eq_zero.mp (le_antisymm h1 (abs_nonneg x))
      intro y hy
      rcases List.mem_cons.mp hy with rfl | hy2
      · exact hx
      · exact ih.mp (le_antisymm h2 (maxAbs_nonneg t)) y hy2
    · intro h
      have hx : x = 0 := h x (List.mem_cons_self x t)
      have ht : maxAbs t = 0 := ih.mpr (fun y hy => h y (List.mem_cons_of_mem x hy))
      rw [hx, ht]
      simp

theorem maxAbs_map_div (xs : List ℚ) (m : ℚ) (hm : 0 < m) :
    maxAbs (xs.map (fun x => x / m)) = maxAbs xs / m := by
  induction xs with
  | nil => simp [maxAbs]
  | cons x t ih =>
    rw [List.map_cons, maxAbs_cons, maxAbs_cons, ih, abs_div, abs_of_pos hm]
    rcases le_total |x| (maxAbs t) with h | h
    · rw [max_eq_right h, max_eq_right ((div_le_div_iff_of_pos_right hm).mpr h)]
    · rw [max_eq_left h, max_eq_left ((div_le_div_iff_of_pos_right hm).mpr h)]

theorem normalize_of_maxAbs_zero (xs : List ℚ) (h : maxAbs xs = 0) :
    normalize xs = xs := by
  unfold normalize
  rw [if_pos h]

theorem maxAbs_normalize_of_ne (xs : List ℚ) (h : maxAbs xs ≠ 0) :
    maxAbs (normalize xs) = 1 := by
  have hpos : 0 < maxAbs xs := lt_of_le_of_ne (maxAbs_nonneg xs) (Ne.symm h)
  unfold normalize
  rw [if_neg h, maxAbs_map_div xs _ hpos, div_self h]

end Separar

/-- C4: the waveform returned by `separateByPitch` has maximum absolute
amplitude at most 1; when the result is not all-zero the maximum is exactly
1; and an all-zero masked result is returned unscaled (no division by
zero). -/
theorem Separar.separate_normalized_amplitude (E : Separar.Estimator)
    (w : Separar.Waveform) (target stability similarity : ℚ) :
    Separar.maxAbs (Separar.separateByPitch E w target stability similarity).samples ≤ 1 ∧
    (¬ (∀ x ∈ (Separar.separateByPitch E w target stability similarity).samples, x = 0) →
      Separar.maxAbs (Separar.separateByPitch E w target stability similarity).samples = 1) ∧
    ((∀ x ∈ Separar.maskedSignal E w target stability similarity, x = 0) →
      (Separar.separateByPitch E w target stability similarity).samples =
        Separar.maskedSignal E w target stability similarity) := by
  by_cases hz : Separar.maxAbs (Separar.maskedSignal E w target stability similarity) = 0
  · have hn : (Separar.separateByPitch E w target stability similarity).samples =
        Separar.maskedSignal E w target stability similarity :=
      Separar.normalize_of_maxAbs_zero _ hz
    refine ⟨?_, ?_, fun _ => hn⟩
    · rw [hn, hz]
      norm_num
    · intro hcon
      exact absurd (fun x hx =>
        (Separar.maxAbs_eq_zero_iff _).mp hz x (hn ▸ hx)) hcon
  · have h1 : Separar.maxAbs
        (Separar.separateByPitch E w target stability similarity).samples = 1 :=
      Separar.maxAbs_normalize_of_ne _ hz
    exact ⟨le_of_eq h1, fun _ => h1,
      fun hall => absurd ((Separar.maxAbs_eq_zero_iff _).mpr hall) hz⟩

/-- Witness for C4: a one-sample waveform with a constant in-tolerance
estimator produces a non-zero separated result of maximum amplitude
exactly 1. -/
theorem Separar.separate_normalized_amplitude_witness :
    (¬ (∀ x ∈ (Separar.separateByPitch (Separar.constEstimator 150 1)
        ⟨[1 / 2], 44100⟩ 150 (1 / 2) (3 / 4)).samples, x = 0)) ∧
    Separar.maxAbs (Separar.separateByPitch (Separar.constEstimator 150 1)
        ⟨[1 / 2], 44100⟩ 150 (1 / 2) (3 / 4)).samples = 1 :=
  ⟨by with_unfolding_all decide,
    (Separar.separate_normalized_amplitude (Separar.constEstimator 150 1)
      ⟨[1 / 2], 44100⟩ 150 (1 / 2) (3 / 4)).2.1 (by with_unfolding_all decide)⟩

namespace Separar

theorem getD_map_le {α : Type} (l : List α) (f g : α → ℚ)
    (h : ∀ a ∈ l, f a ≤ g a) : ∀ n, (l.map f).getD n 0 ≤ (l.map g).getD n 0 := by
  induction l with
  | nil => intro n; simp
  | cons a t ih =>
    intro n
    cases n with
    | zero => simpa using h a (List.mem_cons_self a t)
    | succ k =>
      simp only [List.map_cons, List.getD_cons_succ]
      exact ih (fun b hb => h b (List.mem_cons_of_mem a hb)) k

theorem getPad_le (xs ys : List ℚ) (h : ∀ n, xs.getD n 0 ≤ ys.getD n 0)
    (m j : ℕ) : getPad xs m j ≤ getPad ys m j := by
  unfold getPad
  split
  · exact h (m - j)
  · exact le_refl 0

theorem getD_nonneg (l : List ℚ) (h : ∀ x ∈ l, 0 ≤ x) : ∀ n, 0 ≤ l.getD n 0 := by
  induction l with
  | nil => intro n; simp
  | cons a t ih =>
    intro n
    cases n with
    | zero => simpa using h a (List.mem_cons_self a t)
    | succ k =>
      simp only [List.getD_cons_succ]
      exact ih (fun b hb => h b (List.mem_cons_of_mem a hb)) k

theorem uniform15_getD_nonneg (j : ℕ) : 0 ≤ uniform15.getD j 0 := by
  refine getD_nonneg _ ?_ j
  intro x hx
  rw [List.eq_of_mem_replicate hx]
  norm_num

theorem countPos_map_le {α : Type} (l : List α) (f g : α → ℚ)
    (h : ∀ a ∈ l, f a ≤ g a) : countPos (l.map f) ≤ countPos (l.map g) := by
  induction l with
  | nil => exact le_refl 0
  | cons a t ih =>
    simp only [countPos, List.map_cons, List.countP_cons]
    have h1 := ih (fun b hb => h b (List.mem_cons_of_mem a hb))
    have h2 : (if decide (0 < f a) = true then 1 else 0) ≤
        (if decide (0 < g a) = true then 1 else 0) := by
      by_cases hfa : 0 < f a
      · have hga : 0 < g a := lt_of_lt_of_le hfa (h a (List.mem_cons_self a t))
        simp [hfa, hga]
      · rw [if_neg (by simpa using hfa)]
        split
        · exact Nat.zero_le 1
        · exact le_refl 0
    exact Nat.add_le_add h1 h2

theorem countPos_convSame_le (ker : List ℚ) (hker : ∀ j, 0 ≤ ker.getD j 0)
    (xs ys : List ℚ) (hlen : xs.length = ys.length)
    (h : ∀ n, xs.getD n 0 ≤ ys.getD n 0) :
    countPos (convSame ker xs) ≤ countPos (convSame ker ys) := by
  unfold convSame
  rw [hlen]
  refine countPos_map_le _ _ _ ?_
  intro i _
  refine List.sum_le_sum ?_
  intro j _
  exact mul_le_mul_of_nonneg_left (getPad_le xs ys h _ j) (hker j)

theorem binaryMask_getD_le (E : Estimator) (win : ℕ) (samples : List ℚ)
    (target tol1 tol2 : ℚ) (h : tol2 ≤ tol1) (n : ℕ) :
    (binaryMask E win samples target tol2).getD n 0 ≤
      (binaryMask E win samples target tol1).getD n 0 := by
  unfold binaryMask
  refine getD_map_le _ _ _ ?_ n
  intro e he
  by_cases h2 : |e.frequency - target| ≤ tol2
  · rw [if_pos h2, if_pos (le_trans h2 h)]
  · rw [if_neg h2]
    split
    · norm_num
    · exact le_refl 0

end Separar

/-- C5: for a fixed waveform, target pitch and stability, raising the
similarity never increases the number of frames whose smoothed mask value
exceeds 0: the tolerance `30 * (1 - similarity)` is non-increasing in the
similarity, and so is the count of positive mask frames. -/
theorem Separar.mask_count_antitone_in_similarity (E : Separar.Estimator)
    (samples : List ℚ) (target stability sim1 sim2 : ℚ) (h : sim1 ≤ sim2) :
    Separar.toleranceFor sim2 ≤ Separar.toleranceFor sim1 ∧
    Separar.countPos (Separar.frameMask E samples target stability sim2) ≤
      Separar.countPos (Separar.frameMask E samples target stability sim1) := by
  have htol : Separar.toleranceFor sim2 ≤ Separar.toleranceFor sim1 := by
    unfold Separar.toleranceFor
    linarith
  refine ⟨htol, ?_⟩
  unfold Separar.frameMask
  refine Separar.countPos_convSame_le Separar.uniform15
    Separar.uniform15_getD_nonneg _ _ ?_ ?_
  · rw [Separar.length_binaryMask, Separar.length_binaryMask]
  · exact Separar.binaryMask_getD_le E _ samples target _ _ htol

/-- Witness for C5: at a concrete one-sample waveform, raising the
similarity from 1/2 to 3/4 does not increase the positive-frame count. -/
theorem Separar.mask_count_antitone_in_similarity_witness :
    (1 / 2 : ℚ) ≤ 3 / 4 ∧
    Separar.countPos (Separar.frameMask (Separar.constEstimator 100 1) [1] 100
        (1 / 2) (3 / 4)) ≤
      Separar.countPos (Separar.frameMask (Separar.constEstimator 100 1) [1] 100
        (1 / 2) (1 / 2)) :=
  ⟨by norm_num, (Separar.mask_count_antitone_in_similarity
    (Separar.constEstimator 100 1) [1] 100 (1 / 2) (1 / 2) (3 / 4) (by norm_num)).2⟩

namespace Separar

theorem mem_insertDesc (h : List ℚ) (i x : ℕ) :
    ∀ (l : List ℕ), x ∈ insertDesc h i l → x = i ∨ x ∈ l := by
  intro l
  induction l with
  | nil =>
    intro hx
    simp only [insertDesc] at hx
    exact Or.inl (List.mem_singleton.mp hx)
  | cons j rest ih =>
    intro hx
    simp only [insertDesc] at hx
    split at hx
    · rcases List.mem_cons.mp hx with rfl | h2
      · exact Or.inl rfl
      · exact Or.inr h2
    · rcases List.mem_cons.mp hx with rfl | h2
      · exact Or.inr (List.mem_cons_self x rest)
      · rcases ih h2 with h3 | h3
        · exact Or.inl h3
        · exact Or.inr (List.mem_cons_of_mem j h3)

theorem mem_sortDesc (h : List ℚ) (x : ℕ) :
    ∀ (ps : List ℕ), x ∈ sortDesc h ps → x ∈ ps := by
  intro ps
  unfold sortDesc
  induction ps with
  | nil => exact fun hx => absurd hx (List.not_mem_nil x)
  | cons a t ih =>
    intro hx
    rcases mem_insertDesc h a x _ hx with rfl | h2
    · exact List.mem_cons_self x t
    · exact List.mem_cons_of_mem a (ih h2)

theorem mem_distanceFilter_aux (d x : ℕ) :
    ∀ (ps acc : List ℕ),
      x ∈ ps.foldl (fun kept i => if farFrom kept i d then kept ++ [i] else kept) acc →
      x ∈ acc ∨ x ∈ ps := by
  intro ps
  induction ps with
  | nil => exact fun acc hx => Or.inl hx
  | cons a t ih =>
    intro acc hx
    rcases ih _ hx with h1 | h1
    · dsimp only at h1
      by_cases hfar : farFrom acc a d = true
      · rw [if_pos hfar] at h1
        rcases List.mem_append.mp h1 with h2 | h2
        · exact Or.inl h2
        · exact Or.inr (List.mem_singleton.mp h2 ▸ List.mem_cons_self a t)
      · rw [if_neg hfar] at h1
        exact Or.inl h1
    · exact Or.inr (List.mem_cons_of_mem a h1)

theorem mem_distanceFilter (d x : ℕ) (ps : List ℕ)
    (hx : x ∈ distanceFilter d ps) : x ∈ ps := by
  rcases mem_distanceFilter_aux d x ps [] hx with h1 | h1
  · exact absurd h1 (List.not_mem_nil x)
  · exact h1

theorem mem_rawPeaks_lt (h : List ℚ) (i : ℕ) (hi : i ∈ rawPeaks h) : i < h.length := by
  unfold rawPeaks at hi
  exact List.mem_range.mp (List.mem_filter.mp hi).1

theorem mem_promPeaks_lt (h : List ℚ) (i : ℕ) (hi : i ∈ promPeaks h) : i < h.length := by
  unfold promPeaks at hi
  exact mem_rawPeaks_lt h i (List.mem_filter.mp hi).1

theorem binLower_bounds (i : ℕ) (hi : i < nBins) :
    (50 : ℚ) ≤ binLower i ∧ binLower i ≤ 400 := by
  have hcast : (i : ℚ) ≤ 99 := by
    have : i ≤ 99 := by
      have h100 : i < 100 := hi
      omega
    exact_mod_cast this
  have hcast0 : (0 : ℚ) ≤ (i : ℚ) := Nat.cast_nonneg i
  have hbw : binWidth = 7 / 2 := by norm_num [binWidth, fmin, fmax, nBins]
  constructor
  · unfold binLower
    rw [hbw]
    simp only [fmin]
    nlinarith
  · unfold binLower
    rw [hbw]
    simp only [fmin]
    nlinarith

end Separar

/-- C1: for every waveform (and every estimator and smoothing kernel), the
Analyzer returns at most two dominant pitch frequencies, and every frequency
in the returned sequence lies in the band `[50, 400]` Hz. -/
theorem Separar.analyze_at_most_two_in_range (E : Separar.Estimator)
    (ker : List ℚ) (w : Separar.Waveform) :
    (Separar.analyzeDominantPitches E ker w).length ≤ 2 ∧
    (Separar.analyzeDominantPitches E ker w).Forall
      (fun f => (50 : ℚ) ≤ f ∧ f ≤ 400) := by
  constructor
  · simp only [Separar.analyzeDominantPitches]
    rw [List.length_map, List.length_take]
    exact min_le_left 2 _
  · have hgen : ∀ f ∈ Separar.analyzeDominantPitches E ker w,
        (50 : ℚ) ≤ f ∧ f ≤ 400 := by
      simp only [Separar.analyzeDominantPitches]
      intro f hf
      obtain ⟨i, hi, rfl⟩ := List.mem_map.mp hf
      have hi2 := List.take_subset 2 _ hi
      have hi3 := Separar.mem_sortDesc _ i _ hi2
      have hi4 := Separar.mem_distanceFilter 20 i _ hi3
      have hi5 := Separar.mem_sortDesc _ i _ hi4
      have hi6 := Separar.mem_promPeaks_lt _ i hi5
      rw [Separar.length_convSame, List.length_map, Separar.length_histogram] at hi6
      exact Separar.binLower_bounds i hi6
    revert hgen
    generalize Separar.analyzeDominantPitches E ker w = l
    intro hgen
    exact List.forall_iff_forall_mem.mpr hgen

namespace Separar

theorem frameAt_subset (samples : List ℚ) (i : ℕ) :
    ∀ x ∈ frameAt samples i, x ∈ samples := by
  intro x hx
  unfold frameAt at hx
  exact List.drop_subset _ _ (List.take_subset _ _ hx)

theorem getD_eq_zero_of_all (xs : List ℚ) (h : ∀ x ∈ xs, x = 0) :
    ∀ n, xs.getD n 0 = 0 := by
  induction xs with
  | nil => intro n; simp
  | cons a t ih =>
    intro n
    cases n with
    | zero => simpa using h a (List.mem_cons_self a t)
    | succ k =>
      simp only [List.getD_cons_succ]
      exact ih (fun b hb => h b (List.mem_cons_of_mem a hb)) k

theorem getPad_zero (xs : List ℚ) (h : ∀ x ∈ xs, x = 0) (m j : ℕ) :
    getPad xs m j = 0 := by
  unfold getPad
  split
  · exact getD_eq_zero_of_all xs h (m - j)
  · rfl

theorem convSame_zero (ker xs : List ℚ) (h : ∀ x ∈ xs, x = 0) :
    ∀ y ∈ convSame ker xs, y = 0 := by
  intro y hy
  unfold convSame at hy
  obtain ⟨i, _, rfl⟩ := List.mem_map.mp hy
  refine List.sum_eq_zero ?_
  intro z hz
  obtain ⟨j, _, rfl⟩ := List.mem_map.mp hz
  rw [getPad_zero xs h, mul_zero]

theorem rawPeaks_of_zero (sm : List ℚ) (h : ∀ x ∈ sm, x = 0) :
    rawPeaks sm = [] := by
  unfold rawPeaks
  refine List.filter_eq_nil_iff.mpr ?_
  intro i _
  have hgd := getD_eq_zero_of_all sm h
  simp only [isPeak, decide_eq_true_eq, not_and]
  intro _ _
  rw [hgd (i - 1), hgd i]
  exact fun hcon => absurd hcon (lt_irrefl 0)

theorem analyze_silence (E : Estimator) (ker : List ℚ) (w : Waveform)
    (hE : ∀ (win : ℕ) (fr : List ℚ), (∀ x ∈ fr, x = 0) → (E win fr).confidence = 0)
    (hw : ∀ x ∈ w.samples, x = 0) : analyzeDominantPitches E ker w = [] := by
  have hzero : ∀ x ∈ (histogram
      (((pitchTrack E frameLength w.samples).filter
        (fun e => decide (0 < e.confidence))).map (fun e => e.frequency))).map
          (fun c : ℕ => (c : ℚ)), x = 0 := by
    have hfilt : (pitchTrack E frameLength w.samples).filter
        (fun e => decide (0 < e.confidence)) = [] := by
      refine List.filter_eq_nil_iff.mpr ?_
      intro e he
      obtain ⟨i, _, rfl⟩ := List.mem_map.mp he
      have hc : (E frameLength (frameAt w.samples i)).confidence = 0 :=
        hE _ _ (fun x hx => hw x (frameAt_subset w.samples i x hx))
      simp [hc]
    rw [hfilt]
    intro x hx
    obtain ⟨c, hc, rfl⟩ := List.mem_map.mp hx
    unfold histogram at hc
    obtain ⟨i, _, rfl⟩ := List.mem_map.mp hc
    simp
  have hraw := rawPeaks_of_zero _ (convSame_zero ker _ hzero)
  simp only [analyzeDominantPitches]
  simp [promPeaks, hraw, sortDesc, distanceFilter]

end Separar

/-- C7: an all-zero (silent) waveform of any length yields zero dominant
pitch candidates from the Analyzer, and `processRecording` returns the empty
sequence, as a normal non-error outcome. -/
theorem Separar.silence_yields_no_pitches (E : Separar.Estimator) (ker : List ℚ)
    (w : Separar.Waveform)
    (hE : ∀ (win : ℕ) (fr : List ℚ), (∀ x ∈ fr, x = 0) →
      (E win fr).confidence = 0)
    (hw : ∀ x ∈ w.samples, x = 0) :
    Separar.analyzeDominantPitches E ker w = [] ∧
    Separar.processRecording E ker w = [] := by
  have h1 := Separar.analyze_silence E ker w hE hw
  refine ⟨h1, ?_⟩
  unfold Separar.processRecording
  rw [h1]
  rfl

/-- Witness for C7: the zero estimator on a concrete three-sample silent
waveform yields no candidates and an empty orchestration result. -/
theorem Separar.silence_yields_no_pitches_witness :
    Separar.analyzeDominantPitches Separar.zeroEstimator [1] ⟨[0, 0, 0], 44100⟩ = [] ∧
    Separar.processRecording Separar.zeroEstimator [1] ⟨[0, 0, 0], 44100⟩ = [] :=
  Separar.silence_yields_no_pitches Separar.zeroEstimator [1] ⟨[0, 0, 0], 44100⟩
    (fun _ _ _ => rfl) (by decide)
